import Mathlib

/-!
Verification of the markout computation engine of the `markout_analysis`
repository (sources: `src/markouts.py` and `markout_planning.py`).

The embedding models:
* one order-book snapshot row of a reference series (`Snapshot`);
* one trade row (`Trade`);
* a DataFrame row as the trade fields together with the association list of
  its `markout_{d}` columns (`MarkRow`); the cell value `none` models `NaN`;
* `Markouts.is_valid_symbol`, the symbol selection of
  `Markouts.calculate_markouts` (lines 142-145), the data acquisition
  boundary (`get_data_from_tardis` / `pd.read_csv` / the emptiness check,
  lines 151-164) as an abstract provider `getData`, the snapshot lookup
  (lines 168-176) and the per-row column writes (lines 131-132 and 177);
* `Markout_model.markout_summary` of `markout_planning.py`, with the pandas
  skip-NaN semantics of `.mean() .median() .std() .min() .max() .count()`.

`Python str.upper` is modelled character-wise on the string's character
list, and timestamps are integers as in the source data (the reference
series carries microsecond integer timestamps; trade timestamps are in
seconds and scaled by `1 000 000` exactly as in lines 166 and 169).

Pandas `.std()` uses `ddof = 1` (sample standard deviation) and is an
irrational square root; the embedding carries the exact value it is the
square root of, i.e. the sample variance (`pdVar`), which determines the
standard deviation uniquely.
-/

/-- One row of the reference series CSV: `timestamp` (microseconds),
`bids[0].price`, `asks[0].price`. -/
structure Snapshot where
  timestamp : Int
  bid : ℚ
  ask : ℚ
  deriving DecidableEq

/-- One input trade row: `token_in`, `token_out`, `timestamp` (seconds),
`amount_in`, `amount_out`. -/
structure Trade where
  token_in : String
  token_out : String
  timestamp : Int
  amount_in : ℚ
  amount_out : ℚ
  deriving DecidableEq

/-- One DataFrame row: the trade columns plus the `markout_{d}` columns the
engine creates, keyed by the distance `d`; a cell holding `none` models
`NaN` ("Unavailable"). -/
structure MarkRow where
  trade : Trade
  cols : List (Int × Option ℚ)
  deriving DecidableEq

/-- Python `str.upper()` (character-wise). -/
def upper (s : String) : String := String.mk (s.data.map Char.toUpper)

/-- Model of `Markouts.is_valid_symbol`: `symbol.upper() in self.available_symbols`. -/
def is_valid_symbol (avail : List String) (symbol : String) : Bool :=
  avail.contains (upper symbol)

/-- The symbol selection of `calculate_markouts` (lines 142-145):
`symbol1 = (token_in + token_out).upper()`, `symbol2` the reverse
concatenation, and `symbol1 if valid else (symbol2 if valid else None)`. -/
def pickSymbol (avail : List String) (t : Trade) : Option String :=
  let symbol1 := upper (t.token_in ++ t.token_out)
  let symbol2 := upper (t.token_out ++ t.token_in)
  if is_valid_symbol avail symbol1 then some symbol1
  else if is_valid_symbol avail symbol2 then some symbol2
  else none

/-- Lines 151-164: obtain the reference series for the chosen symbol.
`getData` abstracts `get_data_from_tardis` followed by `pd.read_csv`
(`none` covers the `"NA"` path and a read error); the explicit
`dex_data.empty` check of line 162 is kept separately. -/
def tradeData (avail : List String) (getData : Int → String → Option (List Snapshot))
    (t : Trade) : Option (List Snapshot) :=
  match pickSymbol avail t with
  | none => none
  | some sym =>
    match getData t.timestamp sym with
    | none => none
    | some dex_data => if dex_data.isEmpty then none else some dex_data

/-- Lines 170-175: `relevant_data = dex_data[dex_data['timestamp'] <= filter_timestamp]`
followed by `relevant_data.iloc[-1]` (`none` when the filtered frame is empty). -/
def resolveSnapshot (dex_data : List Snapshot) (q : Int) : Option Snapshot :=
  (dex_data.filter (fun s => decide (s.timestamp ≤ q))).getLast?

/-- Line 176: `midpoint = (last_row['asks[0].price'] + last_row['bids[0].price']) / 2`,
or `none` when line 172 hits the `continue`. -/
def midAt (dex_data : List Snapshot) (q : Int) : Option ℚ :=
  (resolveSnapshot dex_data q).map (fun last => (last.ask + last.bid) / 2)

/-- Assignment to the DataFrame column keyed `d`: overwrite the column if it
exists, create it at the end otherwise (`df[c] = ...` / `df.at[i, c] = ...`). -/
def setCol (cols : List (Int × Option ℚ)) (d : Int) (v : Option ℚ) :
    List (Int × Option ℚ) :=
  if d ∈ cols.map Prod.fst then
    cols.map (fun c => if c.1 = d then (d, v) else c)
  else cols ++ [(d, v)]

/-- Lines 131-132: `for distance in markout_distance_array: df[f'markout_{distance}'] = np.nan`,
restricted to one row. -/
def initCols (cols : List (Int × Option ℚ)) (ds : List Int) :
    List (Int × Option ℚ) :=
  ds.foldl (fun acc d => setCol acc d none) cols

/-- One iteration of the loop of lines 168-177 on one row: write the midpoint
into `markout_{d}` unless the filtered frame was empty (line 172). -/
def writeStep (g : Int → Option ℚ) (acc : List (Int × Option ℚ)) (d : Int) :
    List (Int × Option ℚ) :=
  match g d with
  | none => acc
  | some v => setCol acc d (some v)

/-- The loop of lines 168-177 on one row. -/
def condWrites (g : Int → Option ℚ) (ds : List Int)
    (cols : List (Int × Option ℚ)) : List (Int × Option ℚ) :=
  ds.foldl (writeStep g) cols

/-- The `markout_{d}` columns of one row after a `calculate_markouts` call:
the columns are first reset to `NaN` (lines 131-132); if symbol selection or
data acquisition fails (`continue`, lines 147-164) they stay `NaN`; otherwise
the loop of lines 168-177 fills them, querying at
`int(timestamp * 1_000_000) + distance * 1_000_000` (lines 166 and 169). -/
def rowCols (avail : List String) (getData : Int → String → Option (List Snapshot))
    (ds : List Int) (t : Trade) (cols : List (Int × Option ℚ)) :
    List (Int × Option ℚ) :=
  let cols1 := initCols cols ds
  match tradeData avail getData t with
  | none => cols1
  | some dex_data =>
    condWrites (fun d => midAt dex_data (t.timestamp * 1000000 + d * 1000000))
      ds cols1

/-- Model of `Markouts.calculate_markouts` (lines 120-179): per-row processing; every
row is kept (a failed row only keeps its `NaN` markout cells) and the mutated
DataFrame is returned. -/
def calculate_markouts (avail : List String)
    (getData : Int → String → Option (List Snapshot))
    (df : List MarkRow) (ds : List Int) : List MarkRow :=
  df.map (fun r => ⟨r.trade, rowCols avail getData ds r.trade r.cols⟩)

/-- Model of `Markouts.get_trade_price` (lines 181-185): `amount_out / amount_in`. -/
def get_trade_price (t : Trade) : ℚ := t.amount_out / t.amount_in

/-- Read a row's `markout_{d}` cell: `none` when the column is absent,
`some c` the cell content otherwise. -/
def colVal (r : MarkRow) (d : Int) : Option (Option ℚ) :=
  (r.cols.find? (fun c => decide (c.1 = d))).map Prod.snd

/-- Read a row's `markout_{d}` cell as pandas sees the value (the column is
present on every row `markout_summary` is used on; an absent column reads
as `NaN`). -/
def cellOf (r : MarkRow) (d : Int) : Option ℚ :=
  match r.cols.find? (fun c => decide (c.1 = d)) with
  | some c => c.2
  | none => none

/-- The non-`NaN` entries of a pandas column, in order. -/
def dropna (xs : List (Option ℚ)) : List ℚ := xs.filterMap id

/-- Pandas `Series.count()`: the number of non-`NaN` entries. -/
def pdCount (xs : List (Option ℚ)) : Nat := xs.countP (fun x => x.isSome)

/-- Running (sum, count) over the non-`NaN` entries of a column. -/
def sumCount (xs : List (Option ℚ)) : ℚ × Nat :=
  xs.foldl (fun acc x =>
    match x with
    | none => acc
    | some v => (acc.1 + v, acc.2 + 1)) (0, 0)

/-- Pandas `Series.mean()`: the sum of the non-`NaN` entries over their number,
`NaN` when there are none. -/
def pdMean (xs : List (Option ℚ)) : Option ℚ :=
  let sc := sumCount xs
  if sc.2 = 0 then none else some (sc.1 / (sc.2 : ℚ))

/-- Pandas `Series.min()`: running minimum over the non-`NaN` entries, `NaN` when
there are none. -/
def pdMin (xs : List (Option ℚ)) : Option ℚ :=
  xs.foldl (fun acc x =>
    match acc, x with
    | none, y => y
    | some m, none => some m
    | some m, some v => some (min m v)) none

/-- Pandas `Series.max()`: running maximum over the non-`NaN` entries. -/
def pdMax (xs : List (Option ℚ)) : Option ℚ :=
  xs.foldl (fun acc x =>
    match acc, x with
    | none, y => y
    | some m, none => some m
    | some m, some v => some (max m v)) none

/-- Pandas `Series.median()`: sort the non-`NaN` entries; the middle element for an
odd count, the mean of the two middle elements for an even positive count,
`NaN` for an empty column. -/
def pdMedian (xs : List (Option ℚ)) : Option ℚ :=
  let v := List.insertionSort (fun a b : ℚ => a ≤ b) (dropna xs)
  let n := v.length
  if n = 0 then none
  else if n % 2 = 1 then some (v.getD (n / 2) 0)
  else some ((v.getD (n / 2 - 1) 0 + v.getD (n / 2) 0) / 2)

/-- Pandas `Series.std()` with the default `ddof = 1`, represented by its square:
the sample variance of the non-`NaN` entries, `NaN` for fewer than two
entries (pandas returns `NaN` there as well). -/
def pdVar (xs : List (Option ℚ)) : Option ℚ :=
  let v := dropna xs
  let n := v.length
  if n < 2 then none
  else
    let m := v.sum / (n : ℚ)
    some ((v.map (fun x => (x - m) ^ 2)).sum / ((n : ℚ) - 1))

/-- One row of the summary table of `markout_summary` (the `Std Dev` column
is carried as its square, the sample variance). -/
structure SummaryRow where
  distance : Int
  mean : Option ℚ
  median : Option ℚ
  std2 : Option ℚ
  minimum : Option ℚ
  maximum : Option ℚ
  count : Nat
  deriving DecidableEq

/-- Model of `Markout_model.markout_summary` (markout_planning.py, lines 34-46): one
summary row per distance, in the order of the distance array, each statistic
taken over the `markout_{distance}` column. -/
def markout_summary (df : List MarkRow) (ds : List Int) : List SummaryRow :=
  ds.map (fun d =>
    let col := df.map (fun r => cellOf r d)
    ⟨d, pdMean col, pdMedian col, pdVar col, pdMin col, pdMax col, pdCount col⟩)

/-- Specification-side mean of a list of values. -/
def specMean (v : List ℚ) : Option ℚ :=
  if v.length = 0 then none else some (v.sum / (v.length : ℚ))

/-- Specification-side minimum of a list of values. -/
def specMin (v : List ℚ) : Option ℚ :=
  match v with
  | [] => none
  | a :: as => some (as.foldl min a)

/-- Specification-side maximum of a list of values. -/
def specMax (v : List ℚ) : Option ℚ :=
  match v with
  | [] => none
  | a :: as => some (as.foldl max a)

/-- Specification-side median of a list of values. -/
def specMedian (v0 : List ℚ) : Option ℚ :=
  let v := List.insertionSort (fun a b : ℚ => a ≤ b) v0
  let n := v.length
  if n = 0 then none
  else if n % 2 = 1 then some (v.getD (n / 2) 0)
  else some ((v.getD (n / 2 - 1) 0 + v.getD (n / 2) 0) / 2)

/-- Specification-side sample variance (square of the sample standard
deviation) of a list of values. -/
def specVar (v : List ℚ) : Option ℚ :=
  let n := v.length
  if n < 2 then none
  else
    let m := v.sum / (n : ℚ)
    some ((v.map (fun x => (x - m) ^ 2)).sum / ((n : ℚ) - 1))

/-- Concrete data used by the closed evaluation theorems below. -/
def exAvail : List String := ["ETHUSDC"]

def exSeries : List Snapshot := [⟨5000000, 2000, 2010⟩]

def exGetData : Int → String → Option (List Snapshot) :=
  fun _ sym => if sym = "ETHUSDC" then some exSeries else none

def exTrade : Trade := ⟨"USDC", "ETH", 5, 1000, 1 / 2⟩

def exDF : List MarkRow := [⟨exTrade, []⟩]

def exTrade0 : Trade := ⟨"USDC", "ETH", 5, 1000, 0⟩

def exDF0 : List MarkRow := [⟨exTrade0, []⟩]

def wAvail : List String := ["AB"]

def wSeries : List Snapshot := [⟨1000000, 1, 3⟩, ⟨2000000, 3, 5⟩]

def wGetData : Int → String → Option (List Snapshot) :=
  fun _ sym => if sym = "AB" then some wSeries else none

def wTrade : Trade := ⟨"A", "B", 1, 1, 1⟩

def wDF : List MarkRow := [⟨wTrade, []⟩]

def wRow : MarkRow := ⟨wTrade, [(2, some ((5 + 3 : ℚ) / 2))]⟩

def w3DF : List MarkRow := [⟨⟨"X", "Y", 0, 1, 1⟩, []⟩, ⟨wTrade, []⟩]

def w9DF : List MarkRow := [⟨wTrade, [(5, some 7)]⟩]

def w9Row : MarkRow := ⟨wTrade, [(5, some 7), (2, some ((5 + 3 : ℚ) / 2))]⟩

def w7Series : List Snapshot := [⟨1, 1, 1⟩, ⟨2, 2, 2⟩]

def w4DF : List MarkRow := [⟨wTrade, [(2, some 10)]⟩, ⟨wTrade, [(2, none)]⟩]

theorem setCol_eq_map {C : List (Int × Option ℚ)} {d : Int} (v : Option ℚ)
    (hd : d ∈ C.map Prod.fst) :
    setCol C d v = C.map (fun c => if c.1 = d then (d, v) else c) := by
  simp [setCol, hd]

theorem mem_fst_setCol {C : List (Int × Option ℚ)} {d k : Int} (v : Option ℚ)
    (h : k ∈ C.map Prod.fst) : k ∈ (setCol C d v).map Prod.fst := by
  by_cases hd : d ∈ C.map Prod.fst
  · rw [setCol_eq_map v hd, List.map_map]
    obtain ⟨c, hc, rfl⟩ := List.mem_map.mp h
    refine List.mem_map.mpr ⟨c, hc, ?_⟩
    by_cases h1 : c.1 = d <;> simp [h1]
  · simp only [setCol, if_neg hd, List.map_append]
    exact List.mem_append_left _ h

theorem self_mem_fst_setCol (C : List (Int × Option ℚ)) (d : Int) (v : Option ℚ) :
    d ∈ (setCol C d v).map Prod.fst := by
  by_cases hd : d ∈ C.map Prod.fst
  · rw [setCol_eq_map v hd, List.map_map]
    obtain ⟨c, hc, hc1⟩ := List.mem_map.mp hd
    exact List.mem_map.mpr ⟨c, hc, by simp [Function.comp, hc1]⟩
  · simp [setCol, if_neg hd]

theorem fst_of_mem_setCol {C : List (Int × Option ℚ)} {d k : Int} {v : Option ℚ}
    (h : k ∈ (setCol C d v).map Prod.fst) : k = d ∨ k ∈ C.map Prod.fst := by
  by_cases hd : d ∈ C.map Prod.fst
  · rw [setCol_eq_map v hd, List.map_map] at h
    obtain ⟨c, hc, hceq⟩ := List.mem_map.mp h
    by_cases h1 : c.1 = d
    · simp [h1] at hceq
      exact Or.inl hceq.symm
    · simp [h1] at hceq
      exact Or.inr (hceq ▸ List.mem_map.mpr ⟨c, hc, rfl⟩)
  · simp only [setCol, if_neg hd, List.map_append, List.mem_append] at h
    rcases h with h | h
    · exact Or.inr h
    · simp at h
      exact Or.inl h

theorem setCol_val {C : List (Int × Option ℚ)} {d : Int} {v : Option ℚ} :
    ∀ c ∈ setCol C d v, c.1 = d → c.2 = v := by
  intro c hc hcd
  by_cases hd : d ∈ C.map Prod.fst
  · rw [setCol_eq_map v hd] at hc
    obtain ⟨a, _, rfl⟩ := List.mem_map.mp hc
    by_cases h1 : a.1 = d <;> simp_all
  · simp only [setCol, if_neg hd] at hc
    rcases List.mem_append.mp hc with h | h
    · exact absurd (List.mem_map.mpr ⟨c, h, hcd⟩) hd
    · simp at h
      rw [h]

theorem setCol_filter_ne {C : List (Int × Option ℚ)} {d k : Int} {v : Option ℚ}
    (hk : k ≠ d) :
    (setCol C d v).filter (fun c => decide (c.1 = k)) =
      C.filter (fun c => decide (c.1 = k)) := by
  by_cases hd : d ∈ C.map Prod.fst
  · rw [setCol_eq_map v hd, List.filter_map]
    have h1 : C.filter ((fun c : Int × Option ℚ => decide (c.1 = k)) ∘
        (fun c => if c.1 = d then (d, v) else c)) =
        C.filter (fun c => decide (c.1 = k)) := by
      apply List.filter_congr
      intro c _
      by_cases h2 : c.1 = d <;> simp [h2, Function.comp]
    rw [h1]
    have h2 : ∀ c ∈ C.filter (fun c : Int × Option ℚ => decide (c.1 = k)),
        (fun c : Int × Option ℚ => if c.1 = d then (d, v) else c) c = c := by
      intro c hc
      have h3 : c.1 = k := by simpa using (List.mem_filter.mp hc).2
      simp [h3, Ne.symm hk ∘ Eq.symm ∘ h3.symm.trans]
      intro h4
      exact absurd (h3 ▸ h4) (Ne.symm hk ∘ Eq.symm)
    simpa using List.map_congr_left h2
  · simp only [setCol, if_neg hd, List.filter_append]
    simp [Ne.symm hk]

theorem initCols_nil (C : List (Int × Option ℚ)) : initCols C [] = C := rfl

theorem initCols_cons (C : List (Int × Option ℚ)) (d : Int) (ds : List Int) :
    initCols C (d :: ds) = initCols (setCol C d none) ds := rfl

theorem condWrites_nil (g : Int → Option ℚ) (C : List (Int × Option ℚ)) :
    condWrites g [] C = C := rfl

theorem condWrites_cons (g : Int → Option ℚ) (d : Int) (ds : List Int)
    (C : List (Int × Option ℚ)) :
    condWrites g (d :: ds) C = condWrites g ds (writeStep g C d) := rfl

theorem mem_fst_initCols {ds : List Int} :
    ∀ {C : List (Int × Option ℚ)} {k : Int},
      k ∈ C.map Prod.fst → k ∈ (initCols C ds).map Prod.fst := by
  induction ds with
  | nil => intro C k h; exact h
  | cons d ds ih =>
    intro C k h
    rw [initCols_cons]
    exact ih (mem_fst_setCol none h)

theorem mem_ds_fst_initCols {ds : List Int} :
    ∀ {C : List (Int × Option ℚ)} {d : Int},
      d ∈ ds → d ∈ (initCols C ds).map Prod.fst := by
  induction ds with
  | nil => intro C d h; cases h
  | cons e ds ih =>
    intro C d h
    rw [initCols_cons]
    rcases List.mem_cons.mp h with h | h
    · subst h
      exact mem_fst_initCols (self_mem_fst_setCol C d none)
    · exact ih h

theorem fst_of_mem_initCols {ds : List Int} :
    ∀ {C : List (Int × Option ℚ)} {k : Int},
      k ∈ (initCols C ds).map Prod.fst → k ∈ ds ∨ k ∈ C.map Prod.fst := by
  induction ds with
  | nil => intro C k h; exact Or.inr h
  | cons d ds ih =>
    intro C k h
    rw [initCols_cons] at h
    rcases ih h with h | h
    · exact Or.inl (List.mem_cons_of_mem d h)
    · rcases fst_of_mem_setCol h with h | h
      · exact Or.inl (h ▸ List.mem_cons_self d ds)
      · exact Or.inr h

theorem initCols_val_absent {k : Int} {ds : List Int} :
    ∀ {C : List (Int × Option ℚ)}, k ∉ ds →
      (∀ c ∈ C, c.1 = k → c.2 = none) →
      ∀ c ∈ initCols C ds, c.1 = k → c.2 = none := by
  induction ds with
  | nil => intro C _ hC c hc; exact hC c hc
  | cons d ds ih =>
    intro C hk hC c hc
    rw [initCols_cons] at hc
    have hkd : k ≠ d := fun h => hk (h ▸ List.mem_cons_self d ds)
    refine ih (fun h => hk (List.mem_cons_of_mem d h)) ?_ c hc
    intro a ha ha1
    by_cases hd : d ∈ C.map Prod.fst
    · rw [setCol_eq_map none hd] at ha
      obtain ⟨b, hb, rfl⟩ := List.mem_map.mp ha
      by_cases h1 : b.1 = d
      · simp [h1]
      · simp only [h1, if_neg] at ha1 ⊢
        exact hC b hb ha1
    · simp only [setCol, if_neg hd] at ha
      rcases List.mem_append.mp ha with h | h
      · exact hC a h ha1
      · simp at h
        rw [h]

theorem initCols_val {ds : List Int} :
    ∀ {C : List (Int × Option ℚ)}, ∀ c ∈ initCols C ds, c.1 ∈ ds → c.2 = none := by
  induction ds with
  | nil => intro C c _ h; cases h
  | cons d ds ih =>
    intro C c hc hin
    rw [initCols_cons] at hc
    by_cases hd : c.1 ∈ ds
    · exact ih c hc hd
    · have h1 : c.1 = d := by
        rcases List.mem_cons.mp hin with h | h
        · exact h
        · exact absurd h hd
      refine initCols_val_absent (h1 ▸ hd) ?_ c hc h1
      intro a ha ha1
      exact setCol_val a ha ha1

theorem initCols_char {ds : List Int} :
    ∀ {C : List (Int × Option ℚ)}, (∀ d ∈ ds, d ∈ C.map Prod.fst) →
      initCols C ds = C.map (fun c => if c.1 ∈ ds then (c.1, (none : Option ℚ)) else c) := by
  induction ds with
  | nil =>
    intro C _
    rw [initCols_nil]
    have h : ∀ c ∈ C, (if c.1 ∈ ([] : List Int) then (c.1, (none : Option ℚ)) else c) = c := by
      intro c _
      simp
    rw [List.map_congr_left h, List.map_id']
  | cons d ds ih =>
    intro C hks
    rw [initCols_cons]
    have hd : d ∈ C.map Prod.fst := hks d (List.mem_cons_self d ds)
    rw [setCol_eq_map none hd] at *
    have hks' : ∀ e ∈ ds, e ∈ (C.map (fun c => if c.1 = d then (d, (none : Option ℚ)) else c)).map Prod.fst := by
      intro e he
      rw [← setCol_eq_map none hd]
      exact mem_fst_setCol none (hks e (List.mem_cons_of_mem d he))
    rw [ih hks', List.map_map]
    apply List.map_congr_left
    intro c _
    by_cases h1 : c.1 = d
    · by_cases h2 : d ∈ ds <;> simp [Function.comp, h1, h2]
    · have h3 : (c.1 ∈ d :: ds) = (c.1 ∈ ds) := by
        simp [List.mem_cons, h1]
      by_cases h2 : c.1 ∈ ds <;> simp [Function.comp, h1, h2, h3]

theorem mem_fst_condWrites {g : Int → Option ℚ} {ds : List Int} :
    ∀ {C : List (Int × Option ℚ)} {k : Int},
      k ∈ C.map Prod.fst → k ∈ (condWrites g ds C).map Prod.fst := by
  induction ds with
  | nil => intro C k h; exact h
  | cons d ds ih =>
    intro C k h
    rw [condWrites_cons]
    refine ih ?_
    unfold writeStep
    cases g d with
    | none => exact h
    | some v => exact mem_fst_setCol (some v) h

theorem fst_of_mem_condWrites {g : Int → Option ℚ} {ds : List Int} :
    ∀ {C : List (Int × Option ℚ)} {k : Int},
      k ∈ (condWrites g ds C).map Prod.fst → k ∈ ds ∨ k ∈ C.map Prod.fst := by
  induction ds with
  | nil => intro C k h; exact Or.inr h
  | cons d ds ih =>
    intro C k h
    rw [condWrites_cons] at h
    rcases ih h with h | h
    · exact Or.inl (List.mem_cons_of_mem d h)
    · unfold writeStep at h
      cases hg : g d with
      | none => rw [hg] at h; exact Or.inr h
      | some v =>
        rw [hg] at h
        rcases fst_of_mem_setCol h with h | h
        · exact Or.inl (h ▸ List.mem_cons_self d ds)
        · exact Or.inr h

theorem initCols_filter_ne {k : Int} {ds : List Int} :
    ∀ {C : List (Int × Option ℚ)}, k ∉ ds →
      (initCols C ds).filter (fun c => decide (c.1 = k)) =
        C.filter (fun c => decide (c.1 = k)) := by
  induction ds with
  | nil => intro C _; rw [initCols_nil]
  | cons d ds ih =>
    intro C hk
    rw [initCols_cons, ih (fun h => hk (List.mem_cons_of_mem d h))]
    exact setCol_filter_ne (fun h => hk (h ▸ List.mem_cons_self d ds))

theorem condWrites_filter_ne {g : Int → Option ℚ} {k : Int} {ds : List Int} :
    ∀ {C : List (Int × Option ℚ)}, k ∉ ds →
      (condWrites g ds C).filter (fun c => decide (c.1 = k)) =
        C.filter (fun c => decide (c.1 = k)) := by
  induction ds with
  | nil => intro C _; rw [condWrites_nil]
  | cons d ds ih =>
    intro C hk
    rw [condWrites_cons, ih (fun h => hk (List.mem_cons_of_mem d h))]
    unfold writeStep
    cases g d with
    | none => rfl
    | some v => exact setCol_filter_ne (fun h => hk (h ▸ List.mem_cons_self d ds))

theorem condWrites_char {g : Int → Option ℚ} {ds : List Int} :
    ∀ {C : List (Int × Option ℚ)},
      (∀ c ∈ C, c.1 ∈ ds → (c.2 = none ∨ c.2 = g c.1)) →
      (∀ d ∈ ds, d ∈ C.map Prod.fst) →
      condWrites g ds C = C.map (fun c => if c.1 ∈ ds then (c.1, g c.1) else c) := by
  induction ds with
  | nil =>
    intro C _ _
    rw [condWrites_nil]
    have h : ∀ c ∈ C, (if c.1 ∈ ([] : List Int) then (c.1, g c.1) else c) = c := by
      intro c _
      simp
    rw [List.map_congr_left h, List.map_id']
  | cons d ds ih =>
    intro C hvals hks
    rw [condWrites_cons]
    have hd : d ∈ C.map Prod.fst := hks d (List.mem_cons_self d ds)
    cases hg : g d with
    | none =>
      have hstep : writeStep g C d = C := by
        unfold writeStep
        rw [hg]
      rw [hstep, ih (fun c hc h => hvals c hc (List.mem_cons_of_mem d h))
        (fun e he => hks e (List.mem_cons_of_mem d he))]
      apply List.map_congr_left
      intro c hc
      by_cases h1 : c.1 ∈ ds
      · simp [h1, List.mem_cons_of_mem d h1]
      · by_cases h2 : c.1 = d
        · have h4 : c.2 = none := by
            rcases hvals c hc (h2 ▸ List.mem_cons_self d ds) with h | h
            · exact h
            · rw [h, h2, hg]
          have h5 : c.1 ∈ d :: ds := h2 ▸ List.mem_cons_self d ds
          rw [if_neg h1, if_pos h5, h2, hg]
          exact Prod.ext_iff.mpr ⟨h2, h4⟩
        · have h5 : c.1 ∉ d :: ds := by
            simp [List.mem_cons, h1, h2]
          simp [h1, h5]
    | some v =>
      have hstep : writeStep g C d = C.map (fun c => if c.1 = d then (d, some v) else c) := by
        unfold writeStep
        rw [hg]
        exact setCol_eq_map (some v) hd
      have hvals' : ∀ c ∈ writeStep g C d, c.1 ∈ ds → (c.2 = none ∨ c.2 = g c.1) := by
        rw [hstep]
        intro c hc hin
        obtain ⟨a, ha, hae⟩ := List.mem_map.mp hc
        by_cases h1 : a.1 = d
        · have hcd : c = (d, some v) := by rw [← hae, if_pos h1]
          rw [hcd]
          right
          simp [hg]
        · have hca : c = a := by rw [← hae, if_neg h1]
          rw [hca] at hin ⊢
          exact hvals a ha (List.mem_cons_of_mem d hin)
      have hks' : ∀ e ∈ ds, e ∈ (writeStep g C d).map Prod.fst := by
        intro e he
        unfold writeStep
        rw [hg]
        exact mem_fst_setCol (some v) (hks e (List.mem_cons_of_mem d he))
      rw [ih hvals' hks', hstep, List.map_map]
      apply List.map_congr_left
      intro c _
      by_cases h1 : c.1 = d
      · have h5 : c.1 ∈ d :: ds := h1 ▸ List.mem_cons_self d ds
        by_cases h2 : d ∈ ds <;>
          simp [Function.comp, h1, h2, h5, hg]
      · have h3 : (c.1 ∈ d :: ds) = (c.1 ∈ ds) := by
          simp [List.mem_cons, h1]
        by_cases h2 : c.1 ∈ ds <;> simp [Function.comp, h1, h2, h3]

theorem initCols_initCols (C : List (Int × Option ℚ)) (ds : List Int) :
    initCols (initCols C ds) ds = initCols C ds := by
  rw [initCols_char (fun d hd => mem_ds_fst_initCols hd)]
  have h : ∀ c ∈ initCols C ds,
      (if c.1 ∈ ds then (c.1, (none : Option ℚ)) else c) = c := by
    intro c hc
    by_cases h1 : c.1 ∈ ds
    · rw [if_pos h1]
      exact Prod.ext_iff.mpr ⟨rfl, (initCols_val c hc h1).symm⟩
    · rw [if_neg h1]
  rw [List.map_congr_left h, List.map_id']

theorem initCols_condWrites_initCols (g : Int → Option ℚ) (C : List (Int × Option ℚ))
    (ds : List Int) :
    initCols (condWrites g ds (initCols C ds)) ds = initCols C ds := by
  have hks1 : ∀ d ∈ ds, d ∈ (initCols C ds).map Prod.fst := fun d hd => mem_ds_fst_initCols hd
  have hvals1 : ∀ c ∈ initCols C ds, c.1 ∈ ds → (c.2 = none ∨ c.2 = g c.1) :=
    fun c hc h => Or.inl (initCols_val c hc h)
  have hksR : ∀ d ∈ ds, d ∈ (condWrites g ds (initCols C ds)).map Prod.fst :=
    fun d hd => mem_fst_condWrites (hks1 d hd)
  rw [initCols_char hksR, condWrites_char hvals1 hks1, List.map_map]
  have h : ∀ c ∈ initCols C ds,
      ((fun c : Int × Option ℚ => if c.1 ∈ ds then (c.1, (none : Option ℚ)) else c) ∘
        (fun c : Int × Option ℚ => if c.1 ∈ ds then (c.1, g c.1) else c)) c = c := by
    intro c hc
    by_cases h1 : c.1 ∈ ds
    · simp only [Function.comp, if_pos h1]
      exact Prod.ext_iff.mpr ⟨rfl, (initCols_val c hc h1).symm⟩
    · simp only [Function.comp, if_neg h1]
  rw [List.map_congr_left h, List.map_id']

theorem rowCols_idem (avail : List String) (getData : Int → String → Option (List Snapshot))
    (ds : List Int) (t : Trade) (C : List (Int × Option ℚ)) :
    rowCols avail getData ds t (rowCols avail getData ds t C) =
      rowCols avail getData ds t C := by
  unfold rowCols
  cases htd : tradeData avail getData t with
  | none => exact initCols_initCols C ds
  | some dex =>
    rw [initCols_condWrites_initCols]

theorem find?_fst_map {f : Int × Option ℚ → Int × Option ℚ} (hf : ∀ c, (f c).1 = c.1)
    (C : List (Int × Option ℚ)) (k : Int) :
    (C.map f).find? (fun c => decide (c.1 = k)) =
      (C.find? (fun c => decide (c.1 = k))).map f := by
  induction C with
  | nil => rfl
  | cons c cs ih =>
    by_cases hc : c.1 = k
    · have hfc : (f c).1 = k := (hf c).trans hc
      rw [List.map_cons, List.find?_cons_of_pos _ (by simp [hfc]),
        List.find?_cons_of_pos _ (by simp [hc])]
      rfl
    · have hfc : ¬ (f c).1 = k := fun h => hc ((hf c).symm.trans h)
      rw [List.map_cons, List.find?_cons_of_neg _ (by simp [hfc]),
        List.find?_cons_of_neg _ (by simp [hc])]
      exact ih

theorem find?_initCols {C : List (Int × Option ℚ)} {ds : List Int} {h : Int}
    (hh : h ∈ ds) :
    (initCols C ds).find? (fun c => decide (c.1 = h)) = some (h, none) := by
  have hk : h ∈ (initCols C ds).map Prod.fst := mem_ds_fst_initCols hh
  obtain ⟨c, hc, hc1⟩ := List.mem_map.mp hk
  have hsome : ((initCols C ds).find? (fun c => decide (c.1 = h))).isSome :=
    List.find?_isSome.mpr ⟨c, hc, by simp [hc1]⟩
  obtain ⟨c0, hc0⟩ := Option.isSome_iff_exists.mp hsome
  have hmem : c0 ∈ initCols C ds := List.mem_of_find?_eq_some hc0
  have h1 : c0.1 = h := by simpa using List.find?_some hc0
  have h2 : c0.2 = none := initCols_val c0 hmem (h1 ▸ hh)
  rw [hc0]
  exact congrArg some (Prod.ext_iff.mpr ⟨h1, h2⟩)

theorem rowCols_find (avail : List String) (getData : Int → String → Option (List Snapshot))
    {ds : List Int} (t : Trade) (C : List (Int × Option ℚ)) {h : Int} (hh : h ∈ ds) :
    (rowCols avail getData ds t C).find? (fun c => decide (c.1 = h)) =
      some (h, match tradeData avail getData t with
        | none => none
        | some dex_data => midAt dex_data (t.timestamp * 1000000 + h * 1000000)) := by
  unfold rowCols
  cases htd : tradeData avail getData t with
  | none => exact find?_initCols hh
  | some dex =>
    show (condWrites (fun d => midAt dex (t.timestamp * 1000000 + d * 1000000)) ds
        (initCols C ds)).find? (fun c => decide (c.1 = h)) =
      some (h, midAt dex (t.timestamp * 1000000 + h * 1000000))
    have hks1 : ∀ d ∈ ds, d ∈ (initCols C ds).map Prod.fst :=
      fun d hd => mem_ds_fst_initCols hd
    have hvals1 : ∀ c ∈ initCols C ds, c.1 ∈ ds →
        (c.2 = none ∨
          c.2 = (fun d => midAt dex (t.timestamp * 1000000 + d * 1000000)) c.1) :=
      fun c hc hin => Or.inl (initCols_val c hc hin)
    rw [@condWrites_char (fun d => midAt dex (t.timestamp * 1000000 + d * 1000000)) ds
      (initCols C ds) hvals1 hks1]
    rw [find?_fst_map (fun c => by by_cases h1 : c.1 ∈ ds <;> simp [h1]) _ h]
    rw [find?_initCols hh]
    simp [hh]

theorem rowCols_filter_ne (avail : List String)
    (getData : Int → String → Option (List Snapshot)) {ds : List Int}
    (t : Trade) (C : List (Int × Option ℚ)) {k : Int} (hk : k ∉ ds) :
    (rowCols avail getData ds t C).filter (fun c => decide (c.1 = k)) =
      C.filter (fun c => decide (c.1 = k)) := by
  unfold rowCols
  cases tradeData avail getData t with
  | none => exact initCols_filter_ne hk
  | some dex =>
    show ((condWrites (fun d => midAt dex (t.timestamp * 1000000 + d * 1000000)) ds
        (initCols C ds)).filter (fun c => decide (c.1 = k))) = _
    rw [condWrites_filter_ne hk]
    exact initCols_filter_ne hk

theorem fst_of_mem_rowCols (avail : List String)
    (getData : Int → String → Option (List Snapshot)) {ds : List Int}
    (t : Trade) (C : List (Int × Option ℚ)) {k : Int}
    (h : k ∈ (rowCols avail getData ds t C).map Prod.fst) :
    k ∈ ds ∨ k ∈ C.map Prod.fst := by
  unfold rowCols at h
  cases htd : tradeData avail getData t with
  | none =>
    rw [htd] at h
    exact fst_of_mem_initCols h
  | some dex =>
    rw [htd] at h
    rcases fst_of_mem_condWrites h with h | h
    · exact Or.inl h
    · exact fst_of_mem_initCols h

theorem head?_filter (p : Snapshot → Bool) (m : List Snapshot) :
    (m.filter p).head? = m.find? p := by
  induction m with
  | nil => rfl
  | cons x xs ih =>
    by_cases hx : p x
    · rw [List.filter_cons_of_pos hx, List.find?_cons_of_pos _ hx]
      rfl
    · rw [List.filter_cons_of_neg (by simpa using hx), List.find?_cons_of_neg _ (by simpa using hx)]
      exact ih

theorem resolveSnapshot_eq_find (dex_data : List Snapshot) (q : Int) :
    resolveSnapshot dex_data q =
      dex_data.reverse.find? (fun s => decide (s.timestamp ≤ q)) := by
  unfold resolveSnapshot
  rw [← List.head?_reverse, ← List.filter_reverse, head?_filter]

theorem find?_le_mono (m : List Snapshot) (t1 t2 : Int) (h12 : t1 ≤ t2) :
    ∀ s1, m.find? (fun s => decide (s.timestamp ≤ t1)) = some s1 →
      ∃ s2, m.find? (fun s => decide (s.timestamp ≤ t2)) = some s2 ∧
        s1.timestamp ≤ s2.timestamp := by
  induction m with
  | nil => intro s1 h1; cases h1
  | cons x xs ih =>
    intro s1 h1
    by_cases hx1 : x.timestamp ≤ t1
    · rw [List.find?_cons_of_pos _ (by simpa using hx1)] at h1
      have hs1 : s1 = x := by
        injection h1 with h1
        exact h1.symm
      refine ⟨x, ?_, hs1 ▸ le_refl _⟩
      rw [List.find?_cons_of_pos _ (by simp [le_trans hx1 h12])]
    · rw [List.find?_cons_of_neg _ (by simpa using hx1)] at h1
      by_cases hx2 : x.timestamp ≤ t2
      · refine ⟨x, ?_, ?_⟩
        · rw [List.find?_cons_of_pos _ (by simpa using hx2)]
        · have hs1 : s1.timestamp ≤ t1 := by simpa using List.find?_some h1
          exact le_trans hs1 (le_of_lt (lt_of_not_le hx1))
      · rw [List.find?_cons_of_neg _ (by simpa using hx2)]
        exact ih s1 h1

theorem find?_max_of_antitone (m : List Snapshot) (q : Int)
    (hpair : List.Pairwise (fun a b : Snapshot => b.timestamp ≤ a.timestamp) m) :
    ∀ s, m.find? (fun s => decide (s.timestamp ≤ q)) = some s →
      ∀ x ∈ m, x.timestamp ≤ q → x.timestamp ≤ s.timestamp := by
  induction m with
  | nil => intro s hs; cases hs
  | cons y ys ih =>
    intro s hs x hx hxq
    by_cases hy : y.timestamp ≤ q
    · rw [List.find?_cons_of_pos _ (by simpa using hy)] at hs
      have hsy : s = y := by
        injection hs with hs
        exact hs.symm
      rcases List.mem_cons.mp hx with h | h
      · rw [h, hsy]
      · rw [hsy]
        exact (List.pairwise_cons.mp hpair).1 x h
    · rw [List.find?_cons_of_neg _ (by simpa using hy)] at hs
      rcases List.mem_cons.mp hx with h | h
      · exact absurd (h ▸ hxq) hy
      · exact ih (List.pairwise_cons.mp hpair).2 s hs x h hxq

theorem sumCount_go (xs : List (Option ℚ)) :
    ∀ (s : ℚ) (c : Nat),
      xs.foldl (fun acc x =>
        match x with
        | none => acc
        | some v => (acc.1 + v, acc.2 + 1)) (s, c) =
      (s + (dropna xs).sum, c + (dropna xs).length) := by
  induction xs with
  | nil =>
    intro s c
    simp [dropna]
  | cons x xs ih =>
    intro s c
    cases x with
    | none =>
      rw [List.foldl_cons]
      show xs.foldl _ (s, c) = _
      rw [ih s c]
      simp [dropna]
    | some v =>
      rw [List.foldl_cons]
      show xs.foldl _ (s + v, c + 1) = _
      rw [ih (s + v) (c + 1)]
      have h1 : dropna (some v :: xs) = v :: dropna xs := rfl
      rw [h1]
      refine Prod.ext_iff.mpr ⟨?_, ?_⟩
      · show s + v + (dropna xs).sum = s + (v :: dropna xs).sum
        rw [List.sum_cons]
        ring
      · show c + 1 + (dropna xs).length = c + (v :: dropna xs).length
        rw [List.length_cons]
        omega

theorem pdMean_spec (xs : List (Option ℚ)) : pdMean xs = specMean (dropna xs) := by
  unfold pdMean specMean sumCount
  rw [sumCount_go xs 0 0]
  simp

theorem pdCount_spec (xs : List (Option ℚ)) : pdCount xs = (dropna xs).length := by
  induction xs with
  | nil => rfl
  | cons x xs ih =>
    cases x with
    | none => simpa [pdCount, dropna, List.countP_cons] using ih
    | some v => simpa [pdCount, dropna, List.countP_cons] using ih

theorem pdMin_go (xs : List (Option ℚ)) :
    ∀ m : ℚ,
      xs.foldl (fun acc x =>
        match acc, x with
        | none, y => y
        | some m, none => some m
        | some m, some v => some (min m v)) (some m) =
      some ((dropna xs).foldl min m) := by
  induction xs with
  | nil => intro m; rfl
  | cons x xs ih =>
    intro m
    cases x with
    | none => exact ih m
    | some v =>
      rw [List.foldl_cons]
      show xs.foldl _ (some (min m v)) = _
      rw [ih (min m v)]
      rfl

theorem pdMin_spec (xs : List (Option ℚ)) : pdMin xs = specMin (dropna xs) := by
  induction xs with
  | nil => rfl
  | cons x xs ih =>
    cases x with
    | none => exact ih
    | some v =>
      unfold pdMin
      rw [List.foldl_cons]
      show xs.foldl _ (some v) = _
      rw [pdMin_go xs v]
      rfl

theorem pdMax_go (xs : List (Option ℚ)) :
    ∀ m : ℚ,
      xs.foldl (fun acc x =>
        match acc, x with
        | none, y => y
        | some m, none => some m
        | some m, some v => some (max m v)) (some m) =
      some ((dropna xs).foldl max m) := by
  induction xs with
  | nil => intro m; rfl
  | cons x xs ih =>
    intro m
    cases x with
    | none => exact ih m
    | some v =>
      rw [List.foldl_cons]
      show xs.foldl _ (some (max m v)) = _
      rw [ih (max m v)]
      rfl

theorem pdMax_spec (xs : List (Option ℚ)) : pdMax xs = specMax (dropna xs) := by
  induction xs with
  | nil => rfl
  | cons x xs ih =>
    cases x with
    | none => exact ih
    | some v =>
      unfold pdMax
      rw [List.foldl_cons]
      show xs.foldl _ (some v) = _
      rw [pdMax_go xs v]
      rfl

theorem pdMedian_spec (xs : List (Option ℚ)) : pdMedian xs = specMedian (dropna xs) := rfl

theorem pdVar_spec (xs : List (Option ℚ)) : pdVar xs = specVar (dropna xs) := rfl

/-- Claim C1 fails on the code: at a concrete trade with execution price
`p = amount_out / amount_in = 1/2000` and a resolved mid price `m = 2005`,
`calculate_markouts` stores the raw mid price `2005` in the `markout_2`
cell rather than `(m - p) / p * 10000`; `get_trade_price` is never applied
inside `calculate_markouts` (line 177 assigns `midpoint` directly). -/
theorem markout_cell_is_mid_price_not_bps :
    calculate_markouts exAvail exGetData exDF [2] = [⟨exTrade, [(2, some 2005)]⟩] ∧
    get_trade_price exTrade = 1 / 2000 ∧
    (2005 : ℚ) ≠ (2005 - 1 / 2000) / (1 / 2000) * 10000 := by
  refine ⟨?_, ?_, ?_⟩
  · rw [show (2005 : ℚ) = (2010 + 2000) / 2 from by norm_num]
    rfl
  · norm_num [get_trade_price, exTrade]
  · norm_num

/-- Claim C5 fails on the code: for a trade with `amount_out = 0` (so the
execution price `get_trade_price` is `0`), `calculate_markouts` still writes
the resolved mid price `2005` into the `markout_2` cell instead of leaving
it Unavailable; no degeneracy guard exists because the execution price is
never consulted. -/
theorem zero_price_markout_still_written :
    get_trade_price exTrade0 = 0 ∧
    calculate_markouts exAvail exGetData exDF0 [2] = [⟨exTrade0, [(2, some 2005)]⟩] := by
  refine ⟨?_, ?_⟩
  · norm_num [get_trade_price, exTrade0]
  · rw [show (2005 : ℚ) = (2010 + 2000) / 2 from by norm_num]
    rfl

/-- Counterexample to claim C6 as stated: with an empty horizon list,
`calculate_markouts` does not reject the call; at a concrete input it
returns the input DataFrame unchanged. -/
theorem empty_horizons_returns_result :
    calculate_markouts exAvail exGetData exDF [] = exDF := rfl

/-- Claim C6, amended: with an empty horizon list, `calculate_markouts`
performs no up-front validation and no per-horizon work; it returns the
input DataFrame unchanged (no markout column is added, no failure is
raised). -/
theorem calculate_markouts_empty_horizons (avail : List String)
    (getData : Int → String → Option (List Snapshot)) (df : List MarkRow) :
    calculate_markouts avail getData df [] = df := by
  have h : ∀ r : MarkRow,
      (⟨r.trade, rowCols avail getData [] r.trade r.cols⟩ : MarkRow) = r := by
    intro r
    unfold rowCols
    cases tradeData avail getData r.trade <;> simp [initCols, condWrites]
  induction df with
  | nil => rfl
  | cons r rs ih =>
    simp only [calculate_markouts, List.map_cons] at ih ⊢
    rw [h r]
    exact congrArg (List.cons r) ih

/-- Claim C10: when the concatenation `token_in ++ token_out` (uppercased)
is a valid symbol, the symbol selection of `calculate_markouts` picks it,
regardless of whether the reversed ordering is also valid. -/
theorem pickSymbol_prefers_in_out (avail : List String) (t : Trade)
    (h1 : is_valid_symbol avail (upper (t.token_in ++ t.token_out)) = true)
    (_h2 : is_valid_symbol avail (upper (t.token_out ++ t.token_in)) = true) :
    pickSymbol avail t = some (upper (t.token_in ++ t.token_out)) := by
  simp [pickSymbol, h1]

theorem pickSymbol_prefers_in_out_witness :
    pickSymbol ["AB", "BA"] ⟨"a", "b", 0, 1, 1⟩ = some (upper ("a" ++ "b")) :=
  pickSymbol_prefers_in_out ["AB", "BA"] ⟨"a", "b", 0, 1, 1⟩ (by decide) (by decide)

/-- Claim C7: resolver lookups are monotonic. For a fixed series, if some
snapshot has `snapshot_time ≤ t1` and `t1 < t2`, then both lookups succeed
and the snapshot selected for `t2` has a `snapshot_time` at least that of
the snapshot selected for `t1` (no sortedness assumption is needed). -/
theorem resolveSnapshot_monotonic (data : List Snapshot) (t1 t2 : Int)
    (h12 : t1 < t2) (hex : ∃ s ∈ data, s.timestamp ≤ t1) :
    ∃ s1 s2, resolveSnapshot data t1 = some s1 ∧ resolveSnapshot data t2 = some s2 ∧
      s1.timestamp ≤ s2.timestamp := by
  rw [resolveSnapshot_eq_find, resolveSnapshot_eq_find]
  obtain ⟨s, hs, hst⟩ := hex
  have h1some : ((data.reverse).find? (fun s => decide (s.timestamp ≤ t1))).isSome :=
    List.find?_isSome.mpr ⟨s, List.mem_reverse.mpr hs, by simpa using hst⟩
  obtain ⟨s1, hs1⟩ := Option.isSome_iff_exists.mp h1some
  obtain ⟨s2, hs2, hle⟩ := find?_le_mono data.reverse t1 t2 (le_of_lt h12) s1 hs1
  exact ⟨s1, s2, hs1, hs2, hle⟩

theorem resolveSnapshot_monotonic_witness :
    (1 : Int) < 2 ∧ (∃ s ∈ w7Series, s.timestamp ≤ 1) ∧
    ∃ s1 s2, resolveSnapshot w7Series 1 = some s1 ∧ resolveSnapshot w7Series 2 = some s2 ∧
      s1.timestamp ≤ s2.timestamp :=
  ⟨by decide, ⟨⟨1, 1, 1⟩, by decide, by decide⟩,
    resolveSnapshot_monotonic w7Series 1 2 (by decide) ⟨⟨1, 1, 1⟩, by decide, by decide⟩⟩

/-- Claim C8: `calculate_markouts` is deterministic (the pure model yields
equal outputs on equal trades, reference data and horizons) and idempotent
(running it a second time on its own output with the same inputs reproduces
that output exactly: the columns are reset to NaN and recomputed from the
unchanged trade fields). -/
theorem calculate_markouts_det_idem (avail : List String)
    (getData : Int → String → Option (List Snapshot)) (df : List MarkRow)
    (ds : List Int) :
    calculate_markouts avail getData df ds = calculate_markouts avail getData df ds ∧
    calculate_markouts avail getData (calculate_markouts avail getData df ds) ds =
      calculate_markouts avail getData df ds := by
  refine ⟨rfl, ?_⟩
  simp only [calculate_markouts, List.map_map]
  apply List.map_congr_left
  intro r _
  show (⟨r.trade, rowCols avail getData ds r.trade
      (rowCols avail getData ds r.trade r.cols)⟩ : MarkRow) =
    ⟨r.trade, rowCols avail getData ds r.trade r.cols⟩
  rw [rowCols_idem]

/-- Claim C9: `calculate_markouts` keeps every row, leaves the trade
columns of each row unchanged, preserves every markout column whose key is
not in the supplied horizon list, and only adds or writes `markout_{d}`
columns for horizons `d` of the supplied list. -/
theorem calculate_markouts_frame (avail : List String)
    (getData : Int → String → Option (List Snapshot)) (df : List MarkRow)
    (ds : List Int) :
    (calculate_markouts avail getData df ds).length = df.length ∧
    ∀ (i : Nat) (r r' : MarkRow), df[i]? = some r →
      (calculate_markouts avail getData df ds)[i]? = some r' →
      r'.trade = r.trade ∧
      (∀ k, k ∉ ds → r'.cols.filter (fun c => decide (c.1 = k)) =
        r.cols.filter (fun c => decide (c.1 = k))) ∧
      (∀ k ∈ r'.cols.map Prod.fst, k ∈ ds ∨ k ∈ r.cols.map Prod.fst) := by
  constructor
  · rw [calculate_markouts]
    exact List.length_map df _
  · intro i r r' hr hr'
    rw [calculate_markouts, List.getElem?_map, hr] at hr'
    injection hr' with hr'e
    refine ⟨by rw [← hr'e], ?_, ?_⟩
    · intro k hk
      rw [← hr'e]
      exact rowCols_filter_ne avail getData r.trade r.cols hk
    · intro k hkmem
      rw [← hr'e] at hkmem
      exact fst_of_mem_rowCols avail getData r.trade r.cols hkmem

theorem calculate_markouts_frame_witness :
    ((calculate_markouts wAvail wGetData w9DF [2]).length = w9DF.length) ∧
    w9Row.cols.filter (fun c => decide (c.1 = 5)) =
      [((5 : Int), some (7 : ℚ))].filter (fun c => decide (c.1 = 5)) :=
  ⟨(calculate_markouts_frame wAvail wGetData w9DF [2]).1,
    ((calculate_markouts_frame wAvail wGetData w9DF [2]).2 0 ⟨wTrade, [(5, some 7)]⟩
      w9Row rfl rfl).2.1 5 (by decide)⟩

/-- Claim C3: for every individual trade row whose two candidate symbols
(`token_in ++ token_out` and `token_out ++ token_in`, uppercased) are both
unknown, the corresponding output row of `calculate_markouts` has every
`markout_{h}` cell Unavailable (NaN) — also inside a mixed batch next to
trades with known pairs — and the output row count always equals the input
row count. -/
theorem calculate_markouts_unknown_pair (avail : List String)
    (getData : Int → String → Option (List Snapshot)) (ds : List Int)
    (df : List MarkRow) :
    (calculate_markouts avail getData df ds).length = df.length ∧
    ∀ (i : Nat) (r r' : MarkRow), df[i]? = some r →
      (calculate_markouts avail getData df ds)[i]? = some r' →
      is_valid_symbol avail (upper (r.trade.token_in ++ r.trade.token_out)) = false →
      is_valid_symbol avail (upper (r.trade.token_out ++ r.trade.token_in)) = false →
      ∀ h ∈ ds, colVal r' h = some none := by
  constructor
  · rw [calculate_markouts]
    exact List.length_map df _
  · intro i r r' hr hr' h1 h2 h hh
    rw [calculate_markouts, List.getElem?_map, hr] at hr'
    injection hr' with hr'e
    have htd : tradeData avail getData r.trade = none := by
      unfold tradeData pickSymbol
      simp [h1, h2]
    rw [← hr'e]
    unfold colVal
    show ((rowCols avail getData ds r.trade r.cols).find?
      (fun c => decide (c.1 = h))).map Prod.snd = _
    rw [rowCols_find avail getData r.trade r.cols hh, htd]
    rfl

theorem calculate_markouts_unknown_pair_witness :
    ((calculate_markouts wAvail wGetData w3DF [2]).length = w3DF.length) ∧
    colVal ⟨⟨"X", "Y", 0, 1, 1⟩, [(2, none)]⟩ 2 = some none :=
  ⟨(calculate_markouts_unknown_pair wAvail wGetData [2] w3DF).1,
    (calculate_markouts_unknown_pair wAvail wGetData [2] w3DF).2 0
      ⟨⟨"X", "Y", 0, 1, 1⟩, []⟩ ⟨⟨"X", "Y", 0, 1, 1⟩, [(2, none)]⟩ rfl rfl
      (by decide) (by decide) 2 (by decide)⟩

/-- Claim C2: for a trade at second-resolution timestamp `t` and horizon
`h`, the engine queries the reference series at `t * 1000000 + h * 1000000`;
with a time-sorted series, if no snapshot time is `≤` that query time the
`markout_{h}` cell is Unavailable, and otherwise it holds the mid price
`(best_bid + best_ask) / 2` of a snapshot attaining the greatest such
snapshot time. -/
theorem calculate_markouts_resolver_locf (avail : List String)
    (getData : Int → String → Option (List Snapshot)) (ds : List Int)
    (df : List MarkRow) (i : Nat) (r r' : MarkRow) (h : Int)
    (hr : df[i]? = some r)
    (hr' : (calculate_markouts avail getData df ds)[i]? = some r')
    (hh : h ∈ ds)
    (dex_data : List Snapshot)
    (htd : tradeData avail getData r.trade = some dex_data)
    (hsorted : List.Pairwise (fun a b : Snapshot => a.timestamp ≤ b.timestamp) dex_data) :
    ((∀ s ∈ dex_data, ¬ s.timestamp ≤ r.trade.timestamp * 1000000 + h * 1000000) →
      colVal r' h = some none) ∧
    (∀ s ∈ dex_data, s.timestamp ≤ r.trade.timestamp * 1000000 + h * 1000000 →
      ∃ smax ∈ dex_data,
        smax.timestamp ≤ r.trade.timestamp * 1000000 + h * 1000000 ∧
        (∀ x ∈ dex_data, x.timestamp ≤ r.trade.timestamp * 1000000 + h * 1000000 →
          x.timestamp ≤ smax.timestamp) ∧
        colVal r' h = some (some ((smax.bid + smax.ask) / 2))) := by
  rw [calculate_markouts, List.getElem?_map, hr] at hr'
  injection hr' with hr'e
  have hcv : colVal r' h =
      some (midAt dex_data (r.trade.timestamp * 1000000 + h * 1000000)) := by
    rw [← hr'e]
    unfold colVal
    show ((rowCols avail getData ds r.trade r.cols).find?
      (fun c => decide (c.1 = h))).map Prod.snd = _
    rw [rowCols_find avail getData r.trade r.cols hh, htd]
    rfl
  constructor
  · intro hno
    have hfil : dex_data.filter
        (fun s => decide (s.timestamp ≤ r.trade.timestamp * 1000000 + h * 1000000)) = [] :=
      List.filter_eq_nil_iff.mpr (fun s hs => by simpa using hno s hs)
    rw [hcv]
    unfold midAt resolveSnapshot
    rw [hfil]
    rfl
  · intro s hs hsq
    rw [hcv]
    unfold midAt
    rw [resolveSnapshot_eq_find]
    have hsome : ((dex_data.reverse).find?
        (fun s => decide (s.timestamp ≤ r.trade.timestamp * 1000000 + h * 1000000))).isSome :=
      List.find?_isSome.mpr ⟨s, List.mem_reverse.mpr hs, by simpa using hsq⟩
    obtain ⟨smax, hsmax⟩ := Option.isSome_iff_exists.mp hsome
    have hmem : smax ∈ dex_data := List.mem_reverse.mp (List.mem_of_find?_eq_some hsmax)
    have hle : smax.timestamp ≤ r.trade.timestamp * 1000000 + h * 1000000 := by
      simpa using List.find?_some hsmax
    have hmax : ∀ x ∈ dex_data, x.timestamp ≤ r.trade.timestamp * 1000000 + h * 1000000 →
        x.timestamp ≤ smax.timestamp := by
      intro x hx hxq
      exact find?_max_of_antitone dex_data.reverse _
        (List.pairwise_reverse.mpr hsorted) smax hsmax x (List.mem_reverse.mpr hx) hxq
    refine ⟨smax, hmem, hle, hmax, ?_⟩
    rw [hsmax]
    show some (some ((smax.ask + smax.bid) / 2)) = some (some ((smax.bid + smax.ask) / 2))
    rw [add_comm smax.ask smax.bid]

theorem calculate_markouts_resolver_locf_witness :
    ∃ smax ∈ wSeries, smax.timestamp ≤ wTrade.timestamp * 1000000 + 2 * 1000000 ∧
      (∀ x ∈ wSeries, x.timestamp ≤ wTrade.timestamp * 1000000 + 2 * 1000000 →
        x.timestamp ≤ smax.timestamp) ∧
      colVal wRow 2 = some (some ((smax.bid + smax.ask) / 2)) :=
  (calculate_markouts_resolver_locf wAvail wGetData [2] wDF 0 ⟨wTrade, []⟩ wRow 2
    rfl rfl (by decide) wSeries rfl (by decide)).2 ⟨1000000, 1, 3⟩ (by decide) (by decide)

/-- Claim C4: the summary row of `markout_summary` for the horizon at each
position of the distance array carries the mean, median, sample variance
(the square of the sample standard deviation the source computes), min and
max of exactly the non-Unavailable values of that horizon column, and its
count equals the number of trades whose cell for that horizon is
non-Unavailable. -/
theorem markout_summary_spec (df : List MarkRow) (ds : List Int) (i : Nat) (d : Int)
    (hd : ds[i]? = some d) :
    (markout_summary df ds)[i]? =
      some ⟨d,
        specMean (dropna (df.map (fun r => cellOf r d))),
        specMedian (dropna (df.map (fun r => cellOf r d))),
        specVar (dropna (df.map (fun r => cellOf r d))),
        specMin (dropna (df.map (fun r => cellOf r d))),
        specMax (dropna (df.map (fun r => cellOf r d))),
        df.countP (fun r => (cellOf r d).isSome)⟩ := by
  rw [markout_summary, List.getElem?_map, hd]
  refine congrArg some ?_
  show SummaryRow.mk d
      (pdMean (df.map (fun r => cellOf r d)))
      (pdMedian (df.map (fun r => cellOf r d)))
      (pdVar (df.map (fun r => cellOf r d)))
      (pdMin (df.map (fun r => cellOf r d)))
      (pdMax (df.map (fun r => cellOf r d)))
      (pdCount (df.map (fun r => cellOf r d))) = _
  rw [pdMean_spec, pdMedian_spec, pdVar_spec, pdMin_spec, pdMax_spec]
  congr 1
  unfold pdCount
  rw [List.countP_map]
  rfl

theorem markout_summary_spec_witness :
    (markout_summary w4DF [2])[0]? =
      some ⟨2,
        specMean (dropna (w4DF.map (fun r => cellOf r 2))),
        specMedian (dropna (w4DF.map (fun r => cellOf r 2))),
        specVar (dropna (w4DF.map (fun r => cellOf r 2))),
        specMin (dropna (w4DF.map (fun r => cellOf r 2))),
        specMax (dropna (w4DF.map (fun r => cellOf r 2))),
        w4DF.countP (fun r => (cellOf r 2).isSome)⟩ :=
  markout_summary_spec w4DF [2] 0 2 rfl
